import Mathlib

/-!
Shallow embedding of the ResumeLens Flask application (`app.py`).

The deterministic core is the skill-set matcher: both skill inputs are
comma-separated strings; each is split on commas, trimmed, lower-cased,
with empty tokens discarded, and collected into a set.  The match score is
`int((|resume ∩ job| / |job|) * 100)`.  Two models of that expression are
developed: `calculate_match_score` idealises the Python float arithmetic
as exact natural floor division (harmless for the range, zero, full-match
and refinement properties), while `calculate_match_score_f64` reproduces
the IEEE-754 binary64 rounding exactly, where the two evaluations differ
at reachable inputs.

External collaborators (the generative-model API, PDF text extraction,
JSON parsing of model responses, chart rendering) are modelled as oracle
parameters or per-file data; the local control flow around them is
embedded faithfully.
-/

namespace ResumeLens

/-! ### Normalisation of comma-separated skill strings

Python: `{s.strip().lower() for s in text.split(',') if s.strip()}`. -/

/-- `text.split(',')`: split a character list at every comma, keeping empty
segments (the behaviour of Python `str.split` with an explicit separator). -/
def splitCommaAux : List Char → List Char → List (List Char)
  | [], acc => [acc.reverse]
  | c :: cs, acc =>
    if c = ',' then acc.reverse :: splitCommaAux cs []
    else splitCommaAux cs (c :: acc)

def splitComma (l : List Char) : List (List Char) :=
  splitCommaAux l []

/-- `s.strip()`: drop whitespace from both ends. -/
def trimChars (l : List Char) : List Char :=
  List.rdropWhile Char.isWhitespace (List.dropWhile Char.isWhitespace l)

/-- `s.lower()` (ASCII letters, matching `Char.toLower`). -/
def lowerChars (l : List Char) : List Char :=
  l.map Char.toLower

/-- The set comprehension `{s.strip().lower() for s in text.split(',') if s.strip()}`. -/
def normalizeTokens (l : List Char) : Finset (List Char) :=
  (((splitComma l).filter (fun t => !(trimChars t).isEmpty)).map
    (fun t => lowerChars (trimChars t))).toFinset

def normalizeSkills (s : String) : Finset (List Char) :=
  normalizeTokens s.data

/-- `calculate_match_score` (app.py lines 77–83).  Python truthiness of a
string is non-emptiness; `int(x)` on the non-negative float ratio is floor,
idealised here as exact natural division (see `calculate_match_score_f64`
below for the binary64-faithful model of the same line). -/
def calculate_match_score (resume_skills job_skills : String) : Nat :=
  if resume_skills = "" ∨ job_skills = "" then 0
  else
    let resume_set := normalizeSkills resume_skills
    let job_set := normalizeSkills job_skills
    let matched := resume_set ∩ job_set
    if job_set ≠ ∅ then matched.card * 100 / job_set.card else 0

/-! ### Character-level facts about `Char.toLower` -/

theorem char_toNat_ofNat {n : Nat} (h : n < 55296) : (Char.ofNat n).toNat = n := by
  have hv : n.isValidChar := Or.inl h
  simp only [Char.ofNat, dif_pos hv]
  rfl

theorem toNat_ws_chars : (' ' : Char).toNat = 32 ∧ ('\t' : Char).toNat = 9 ∧
    ('\x0d' : Char).toNat = 13 ∧ ('\n' : Char).toNat = 10 ∧
    (',' : Char).toNat = 44 := by
  refine ⟨rfl, rfl, rfl, rfl, rfl⟩

theorem toLower_isWhitespace (c : Char) :
    (Char.toLower c).isWhitespace = c.isWhitespace := by
  obtain ⟨w1, w2, w3, w4, -⟩ := toNat_ws_chars
  unfold Char.toLower
  by_cases h : c.toNat ≥ 65 ∧ c.toNat ≤ 90
  · rw [if_pos h]
    have h32 : (Char.ofNat (c.toNat + 32)).toNat = c.toNat + 32 :=
      char_toNat_ofNat (by omega)
    have hc : c.isWhitespace = false := by
      simp only [Char.isWhitespace, Bool.or_eq_false_iff, decide_eq_false_iff_not]
      refine ⟨⟨⟨fun e => ?_, fun e => ?_⟩, fun e => ?_⟩, fun e => ?_⟩ <;>
        (replace e := congrArg Char.toNat e; simp only [w1, w2, w3, w4] at e; omega)
    have hl : (Char.ofNat (c.toNat + 32)).isWhitespace = false := by
      simp only [Char.isWhitespace, Bool.or_eq_false_iff, decide_eq_false_iff_not]
      refine ⟨⟨⟨fun e => ?_, fun e => ?_⟩, fun e => ?_⟩, fun e => ?_⟩ <;>
        (replace e := congrArg Char.toNat e; rw [h32] at e;
         simp only [w1, w2, w3, w4] at e; omega)
    rw [hc, hl]
  · rw [if_neg h]

theorem toLower_toLower (c : Char) :
    Char.toLower (Char.toLower c) = Char.toLower c := by
  unfold Char.toLower
  by_cases h : c.toNat ≥ 65 ∧ c.toNat ≤ 90
  · rw [if_pos h]
    have h32 : (Char.ofNat (c.toNat + 32)).toNat = c.toNat + 32 :=
      char_toNat_ofNat (by omega)
    rw [if_neg (by omega)]
  · rw [if_neg h, if_neg h]

theorem toLower_eq_comma {c : Char} (h : Char.toLower c = ',') : c = ',' := by
  unfold Char.toLower at h
  by_cases hc : c.toNat ≥ 65 ∧ c.toNat ≤ 90
  · rw [if_pos hc] at h
    have h32 : (Char.ofNat (c.toNat + 32)).toNat = c.toNat + 32 :=
      char_toNat_ofNat (by omega)
    replace h := congrArg Char.toNat h
    rw [h32, toNat_ws_chars.2.2.2.2] at h
    omega
  · rwa [if_neg hc] at h

/-! ### Facts about `trimChars`, `lowerChars` and `splitComma` -/

theorem dropWhile_rdropWhile_dropWhile (p : α → Bool) (l : List α) :
    List.dropWhile p ((l.dropWhile p).rdropWhile p) = (l.dropWhile p).rdropWhile p := by
  obtain ⟨t, ht⟩ := List.rdropWhile_prefix p (l.dropWhile p)
  cases hB : (l.dropWhile p).rdropWhile p with
  | nil => simp
  | cons a bs =>
    rw [List.dropWhile_cons]
    rw [hB] at ht
    have hsplit : l.dropWhile p = a :: (bs ++ t) := by
      rw [← ht]; rfl
    have hhead : p a = false := by
      have h0 := List.head?_dropWhile_not p l
      rw [hsplit] at h0
      simpa using h0
    simp [hhead]

theorem trimChars_idempotent (l : List Char) :
    trimChars (trimChars l) = trimChars l := by
  unfold trimChars
  rw [dropWhile_rdropWhile_dropWhile, List.rdropWhile_idempotent]

theorem isWhitespace_comp_toLower :
    (Char.isWhitespace ∘ Char.toLower) = Char.isWhitespace := by
  funext c
  exact toLower_isWhitespace c

theorem dropWhile_lowerChars (l : List Char) :
    List.dropWhile Char.isWhitespace (lowerChars l) =
      lowerChars (List.dropWhile Char.isWhitespace l) := by
  unfold lowerChars
  rw [List.dropWhile_map, isWhitespace_comp_toLower]

theorem rdropWhile_lowerChars (l : List Char) :
    List.rdropWhile Char.isWhitespace (lowerChars l) =
      lowerChars (List.rdropWhile Char.isWhitespace l) := by
  unfold List.rdropWhile lowerChars
  rw [← List.map_reverse, List.dropWhile_map, isWhitespace_comp_toLower,
    List.map_reverse]

theorem trimChars_lowerChars (l : List Char) :
    trimChars (lowerChars l) = lowerChars (trimChars l) := by
  unfold trimChars
  rw [dropWhile_lowerChars, rdropWhile_lowerChars]

theorem lowerChars_lowerChars (l : List Char) :
    lowerChars (lowerChars l) = lowerChars l := by
  unfold lowerChars
  rw [List.map_map]
  exact List.map_congr_left (fun a _ => toLower_toLower a)

theorem mem_of_mem_trimChars {c : Char} {l : List Char} (h : c ∈ trimChars l) :
    c ∈ l := by
  unfold trimChars at h
  have h1 := (List.rdropWhile_prefix Char.isWhitespace
    (l.dropWhile Char.isWhitespace)).subset h
  exact (List.dropWhile_sublist Char.isWhitespace).subset h1

theorem comma_not_mem_lowerChars {l : List Char} (h : ',' ∉ l) :
    ',' ∉ lowerChars l := by
  intro hm
  obtain ⟨a, ha, hla⟩ := List.mem_map.mp hm
  exact h (toLower_eq_comma hla ▸ ha)

theorem length_lowerChars (l : List Char) : (lowerChars l).length = l.length :=
  List.length_map l Char.toLower

/-- Tokens produced by the comma split contain no comma. -/
theorem splitCommaAux_no_comma :
    ∀ (cs acc : List Char), ',' ∉ acc →
      ∀ t ∈ splitCommaAux cs acc, ',' ∉ t := by
  intro cs
  induction cs with
  | nil =>
    intro acc hacc t ht
    simp only [splitCommaAux, List.mem_singleton] at ht
    subst ht
    simpa using hacc
  | cons c cs ih =>
    intro acc hacc t ht
    simp only [splitCommaAux] at ht
    by_cases hc : c = ','
    · rw [if_pos hc] at ht
      rcases List.mem_cons.mp ht with h | h
      · subst h; simpa using hacc
      · exact ih [] (by simp) t h
    · rw [if_neg hc] at ht
      refine ih (c :: acc) ?_ t ht
      intro hmem
      rcases List.mem_cons.mp hmem with h | h
      · exact hc h.symm
      · exact hacc h

theorem splitComma_no_comma {l : List Char} {t : List Char}
    (ht : t ∈ splitComma l) : ',' ∉ t :=
  splitCommaAux_no_comma l [] (by simp) t ht

/-- `",".join(tokens)`: comma-join a list of tokens. -/
def joinComma : List (List Char) → List Char
  | [] => []
  | [t] => t
  | t :: u :: ts => t ++ ',' :: joinComma (u :: ts)

theorem splitCommaAux_append (t cs acc : List Char) :
    ',' ∉ t → splitCommaAux (t ++ cs) acc = splitCommaAux cs (t.reverse ++ acc) := by
  induction t generalizing acc with
  | nil => intro _; simp
  | cons c t ih =>
    intro h
    have hc : ¬ c = ',' := fun e => h (e ▸ List.mem_cons_self c t)
    have hT : ',' ∉ t := fun e => h (List.mem_cons_of_mem c e)
    simp only [List.cons_append, splitCommaAux, if_neg hc, List.append_eq]
    rw [ih (c :: acc) hT]
    congr 1
    simp

theorem splitComma_joinComma :
    ∀ (L : List (List Char)), (∀ t ∈ L, ',' ∉ t) → L ≠ [] →
      splitComma (joinComma L) = L := by
  intro L
  induction L with
  | nil => intro _ h; exact absurd rfl h
  | cons t ts ih =>
    intro hnc _
    cases ts with
    | nil =>
      have ht : ',' ∉ t := hnc t (List.mem_cons_self t [])
      have h1 : splitCommaAux (t ++ []) [] = splitCommaAux [] (t.reverse ++ []) :=
        splitCommaAux_append t [] [] ht
      rw [List.append_nil] at h1
      show splitCommaAux t [] = [t]
      rw [h1]
      simp [splitCommaAux]
    | cons u ts2 =>
      have ht : ',' ∉ t := hnc t (List.mem_cons_self t _)
      have hrest : ∀ x ∈ u :: ts2, ',' ∉ x :=
        fun x hx => hnc x (List.mem_cons_of_mem t hx)
      have h2 : splitCommaAux (joinComma (u :: ts2)) [] = u :: ts2 :=
        ih hrest (by simp)
      show splitCommaAux (joinComma (t :: u :: ts2)) [] = t :: u :: ts2
      rw [show joinComma (t :: u :: ts2) = t ++ ',' :: joinComma (u :: ts2) from rfl]
      rw [splitCommaAux_append t _ [] ht]
      simp only [splitCommaAux, if_pos rfl]
      rw [h2]
      simp

/-- Every token of a normalised skill set is itself normal: trimmed,
lower-case, non-empty, comma-free. -/
theorem mem_normalizeTokens_shape {t l : List Char} (h : t ∈ normalizeTokens l) :
    trimChars t = t ∧ lowerChars t = t ∧ t ≠ [] ∧ ',' ∉ t := by
  unfold normalizeTokens at h
  obtain ⟨seg, hseg, hts⟩ := List.mem_map.mp (List.mem_toFinset.mp h)
  obtain ⟨hsplit, hkeep⟩ := List.mem_filter.mp hseg
  have htr : trimChars seg ≠ [] := by
    simpa [List.isEmpty_iff] using hkeep
  subst hts
  refine ⟨?_, ?_, ?_, ?_⟩
  · rw [trimChars_lowerChars, trimChars_idempotent]
  · rw [lowerChars_lowerChars]
  · intro e
    have := congrArg List.length e
    rw [length_lowerChars] at this
    exact htr (List.length_eq_zero.mp this)
  · have h1 : ',' ∉ seg := splitComma_no_comma hsplit
    have h2 : ',' ∉ trimChars seg := fun hm => h1 (mem_of_mem_trimChars hm)
    exact comma_not_mem_lowerChars h2

/-- Re-normalising the comma-join of any enumeration of a normalised set
gives back that set. -/
theorem normalizeTokens_joinComma {l : List Char} (L : List (List Char))
    (hL : L.toFinset = normalizeTokens l) :
    normalizeTokens (joinComma L) = normalizeTokens l := by
  cases L with
  | nil =>
    rw [← hL]
    rfl
  | cons t ts =>
    have hmemS : ∀ x ∈ t :: ts, x ∈ normalizeTokens l :=
      fun x hx => hL ▸ List.mem_toFinset.mpr hx
    have hshape : ∀ x ∈ t :: ts,
        trimChars x = x ∧ lowerChars x = x ∧ x ≠ [] ∧ ',' ∉ x :=
      fun x hx => mem_normalizeTokens_shape (hmemS x hx)
    have hnc : ∀ x ∈ t :: ts, ',' ∉ x := fun x hx => (hshape x hx).2.2.2
    have hsplit : splitComma (joinComma (t :: ts)) = t :: ts :=
      splitComma_joinComma _ hnc (by simp)
    unfold normalizeTokens
    rw [hsplit]
    have hfilter : (t :: ts).filter (fun x => !(trimChars x).isEmpty) = t :: ts := by
      rw [List.filter_eq_self]
      intro a ha
      rw [(hshape a ha).1]
      simp [List.isEmpty_iff, (hshape a ha).2.2.1]
    rw [hfilter]
    have hmap : (t :: ts).map (fun x => lowerChars (trimChars x)) = t :: ts := by
      have hid : ∀ a ∈ t :: ts, lowerChars (trimChars a) = a := by
        intro a ha
        rw [(hshape a ha).1, (hshape a ha).2.1]
      rw [List.map_congr_left hid]
      simp
    rw [hmap, hL]
    rfl

/-! ### Basic facts about `calculate_match_score` -/

theorem calculate_match_score_eq (a b : String) :
    calculate_match_score a b =
      if a = "" ∨ b = "" then 0
      else if normalizeSkills b ≠ ∅ then
        ((normalizeSkills a) ∩ (normalizeSkills b)).card * 100 /
          (normalizeSkills b).card
      else 0 := rfl

theorem normalizeSkills_empty_string : normalizeSkills "" = ∅ := by decide

theorem ne_empty_string_of_normalizeSkills {s : String}
    (h : normalizeSkills s ≠ ∅) : s ≠ "" := by
  intro e
  apply h
  rw [e]
  exact normalizeSkills_empty_string

/-! ### A binary64-faithful model of the score expression

`calculate_match_score` above idealises the Python float expression
`int((len(matched)/len(job_set))*100)` (app.py line 83) as exact natural
floor division.  CPython evaluates it in IEEE-754 binary64: one rounded
division, one rounded multiplication, then truncation toward zero.  The
two evaluations can differ at reachable inputs (29 matched of a 50-skill
job set gives 57 under binary64 but 58 under the exact floor), so the
rounding is modelled here exactly, with integer arithmetic only: a float
value is a dyadic rational (mantissa, base-two exponent), and rounding is
round-to-nearest with ties to even at the quantum `2^(e-52)` clamped to
the subnormal quantum `2^-1074` (overflow is unreachable: all values
involved lie in `[0, 100]`). -/

def natLog2F : Nat → Nat → Nat
  | 0, _ => 0
  | fuel + 1, n => if 2 ≤ n then natLog2F fuel (n / 2) + 1 else 0

/-- `⌊log2 n⌋` for positive `n` (fuel-bounded; fuel `n` always suffices
because the argument halves at every step). -/
def natLog2 (n : Nat) : Nat := natLog2F n n

/-- Does `2^e ≤ a / b` hold?  (`a`, `b` positive naturals.) -/
def pow2LE (e : Int) (a b : Nat) : Bool :=
  if 0 ≤ e then b * 2 ^ e.toNat ≤ a else b ≤ a * 2 ^ (- e).toNat

/-- `⌊log2 (a / b)⌋` for positive `a`, `b`. -/
def fracLog2 (a b : Nat) : Int :=
  let e0 : Int := (natLog2 a : Int) - (natLog2 b : Int)
  if pow2LE (e0 + 1) a b then e0 + 1
  else if pow2LE e0 a b then e0
  else e0 - 1

/-- Round `(a / b) / 2^E` to the nearest natural, ties to even. -/
def roundFracAt (a b : Nat) (E : Int) : Nat :=
  let p := if 0 ≤ E then a else a * 2 ^ (- E).toNat
  let q := if 0 ≤ E then b * 2 ^ E.toNat else b
  let fl := p / q
  let r := p % q
  if q < 2 * r then fl + 1
  else if 2 * r < q then fl
  else if fl % 2 = 0 then fl else fl + 1

/-- The binary64 value nearest to `a / b` (`b` positive), as a dyadic pair
(mantissa, exponent): value = mantissa · 2^exponent. -/
def roundDoubleFrac (a b : Nat) : Nat × Int :=
  if a = 0 then (0, 0)
  else
    let e := fracLog2 a b - 52
    let E := if e ≤ -1074 then -1074 else e
    (roundFracAt a b E, E)

/-- A dyadic pair as a numerator/denominator pair. -/
def dyFrac : Nat × Int → Nat × Nat
  | (m, e) => if 0 ≤ e then (m * 2 ^ e.toNat, 1) else (m, 2 ^ (- e).toNat)

/-- The CPython value of `int((m/n)*100)` (app.py line 83): binary64
division, binary64 multiplication by 100, truncation toward zero. -/
def pyIntRatioTimes100 (m n : Nat) : Nat :=
  let d1 := roundDoubleFrac m n
  let f1 := dyFrac (d1.1 * 100, d1.2)
  let d2 := roundDoubleFrac f1.1 f1.2
  if 0 ≤ d2.2 then d2.1 * 2 ^ d2.2.toNat else d2.1 / 2 ^ (- d2.2).toNat

/-- `calculate_match_score` (app.py lines 77–83) with the float expression
modelled by `pyIntRatioTimes100` instead of exact floor division. -/
def calculate_match_score_f64 (resume_skills job_skills : String) : Nat :=
  if resume_skills = "" ∨ job_skills = "" then 0
  else
    let resume_set := normalizeSkills resume_skills
    let job_set := normalizeSkills job_skills
    let matched := resume_set ∩ job_set
    if job_set ≠ ∅ then pyIntRatioTimes100 matched.card job_set.card else 0

theorem calculate_match_score_f64_eq (a b : String) :
    calculate_match_score_f64 a b =
      if a = "" ∨ b = "" then 0
      else if normalizeSkills b ≠ ∅ then
        pyIntRatioTimes100 ((normalizeSkills a ∩ normalizeSkills b).card)
          ((normalizeSkills b).card)
      else 0 := rfl

/-! ### The claims -/

/-- C1: for every pair of input strings, `calculate_match_score` returns an
integer in the inclusive range `[0, 100]`. -/
theorem score_in_range (a b : String) :
    0 ≤ calculate_match_score a b ∧ calculate_match_score a b ≤ 100 := by
  refine ⟨Nat.zero_le _, ?_⟩
  rw [calculate_match_score_eq]
  split
  · omega
  · split
    · rename_i hb
      have hcard : 0 < (normalizeSkills b).card :=
        Finset.card_pos.mpr (Finset.nonempty_iff_ne_empty.mpr hb)
      have hle : ((normalizeSkills a) ∩ (normalizeSkills b)).card ≤
          (normalizeSkills b).card :=
        Finset.card_le_card Finset.inter_subset_right
      calc ((normalizeSkills a) ∩ (normalizeSkills b)).card * 100 /
            (normalizeSkills b).card
          ≤ (normalizeSkills b).card * 100 / (normalizeSkills b).card :=
            Nat.div_le_div_right (by omega)
        _ = 100 := Nat.mul_div_cancel_left 100 hcard
    · omega

/-- C2 counterexample: the exact-floor formula fails at a reachable input.
With a job string of 50 distinct skills of which the resume string matches
29, the binary64 evaluation of `int((29/50)*100)` is 57 (CPython:
`0.58*100 = 57.99999999999999`), while the claimed exact floor
`⌊100·29/50⌋` — which the exact-arithmetic idealisation also computes —
is 58. -/
theorem score_is_floor_coverage_cex :
    calculate_match_score_f64
        "aa,ab,ac,ad,ae,af,ag,ah,ai,aj,ak,al,am,an,ao,ap,aq,ar,as,at,au,av,aw,ax,ay,az,ba,bb,bc"
        "aa,ab,ac,ad,ae,af,ag,ah,ai,aj,ak,al,am,an,ao,ap,aq,ar,as,at,au,av,aw,ax,ay,az,ba,bb,bc,bd,be,bf,bg,bh,bi,bj,bk,bl,bm,bn,bo,bp,bq,br,bs,bt,bu,bv,bw,bx"
      = 57 ∧
    100 * ((normalizeSkills
        "aa,ab,ac,ad,ae,af,ag,ah,ai,aj,ak,al,am,an,ao,ap,aq,ar,as,at,au,av,aw,ax,ay,az,ba,bb,bc"
        ∩ normalizeSkills
        "aa,ab,ac,ad,ae,af,ag,ah,ai,aj,ak,al,am,an,ao,ap,aq,ar,as,at,au,av,aw,ax,ay,az,ba,bb,bc,bd,be,bf,bg,bh,bi,bj,bk,bl,bm,bn,bo,bp,bq,br,bs,bt,bu,bv,bw,bx").card)
      / (normalizeSkills
        "aa,ab,ac,ad,ae,af,ag,ah,ai,aj,ak,al,am,an,ao,ap,aq,ar,as,at,au,av,aw,ax,ay,az,ba,bb,bc,bd,be,bf,bg,bh,bi,bj,bk,bl,bm,bn,bo,bp,bq,br,bs,bt,bu,bv,bw,bx").card
      = 58 ∧
    calculate_match_score
        "aa,ab,ac,ad,ae,af,ag,ah,ai,aj,ak,al,am,an,ao,ap,aq,ar,as,at,au,av,aw,ax,ay,az,ba,bb,bc"
        "aa,ab,ac,ad,ae,af,ag,ah,ai,aj,ak,al,am,an,ao,ap,aq,ar,as,at,au,av,aw,ax,ay,az,ba,bb,bc,bd,be,bf,bg,bh,bi,bj,bk,bl,bm,bn,bo,bp,bq,br,bs,bt,bu,bv,bw,bx"
      = 58 := by
  refine ⟨by decide, by decide, by decide⟩

/-- C2 (amended): whenever both normalised skill sets are non-empty, the
score is the binary64 evaluation of `int((|resume ∩ job| / |job|) * 100)` —
truncation toward zero of the rounded double product, which can fall below
the exact floor `⌊100·m/n⌋` — and with job set `{python, docker, aws}`,
resume "python, aws" scores 66 and resume "docker" scores 33. -/
theorem score_is_binary64_coverage :
    (∀ a b : String, normalizeSkills a ≠ ∅ → normalizeSkills b ≠ ∅ →
      calculate_match_score_f64 a b =
        pyIntRatioTimes100 ((normalizeSkills a ∩ normalizeSkills b).card)
          ((normalizeSkills b).card)) ∧
    calculate_match_score_f64 "python, aws" "python, docker, aws" = 66 ∧
    calculate_match_score_f64 "docker" "python, docker, aws" = 33 := by
  refine ⟨?_, by decide, by decide⟩
  intro a b ha hb
  have haS := ne_empty_string_of_normalizeSkills ha
  have hbS := ne_empty_string_of_normalizeSkills hb
  simp only [calculate_match_score_f64_eq, haS, hbS, or_self, if_false]
  rw [if_pos hb]

/-- Witness for the amended C2 at a concrete input. -/
theorem score_is_binary64_coverage_witness :
    normalizeSkills "python" ≠ ∅ ∧ normalizeSkills "python, sql" ≠ ∅ ∧
    calculate_match_score_f64 "python" "python, sql" =
      pyIntRatioTimes100
        ((normalizeSkills "python" ∩ normalizeSkills "python, sql").card)
        ((normalizeSkills "python, sql").card) :=
  ⟨by decide, by decide,
    score_is_binary64_coverage.1 "python" "python, sql" (by decide) (by decide)⟩

/-- C3: if either input normalises to the empty skill set (for example a
comma-only or whitespace-only string), the score is 0. -/
theorem score_zero_of_empty_side :
    (∀ a b : String, normalizeSkills a = ∅ ∨ normalizeSkills b = ∅ →
      calculate_match_score a b = 0) ∧
    normalizeSkills " , ," = ∅ ∧ normalizeSkills "   " = ∅ := by
  refine ⟨?_, by decide, by decide⟩
  intro a b h
  rw [calculate_match_score_eq]
  by_cases he : a = "" ∨ b = ""
  · rw [if_pos he]
  · rw [if_neg he]
    rcases h with h | h
    · by_cases hb : normalizeSkills b ≠ ∅
      · rw [if_pos hb, h]
        simp
      · rw [if_neg hb]
    · have hb : ¬ normalizeSkills b ≠ ∅ := by simpa using h
      rw [if_neg hb]

/-- Witness for C3 at a concrete input: a comma-only résumé string scores 0
against any job string. -/
theorem score_zero_of_empty_side_witness :
    (normalizeSkills "," = ∅ ∨ normalizeSkills "python" = ∅) ∧
    calculate_match_score "," "python" = 0 :=
  ⟨Or.inl (by decide),
    score_zero_of_empty_side.1 "," "python" (Or.inl (by decide))⟩

/-- C4: inputs normalising to the same non-empty set score 100; in particular
`score("Python, SQL", "python,sql") = 100`. -/
theorem score_hundred_of_equal_sets :
    (∀ a b : String, normalizeSkills a = normalizeSkills b →
      normalizeSkills a ≠ ∅ → calculate_match_score a b = 100) ∧
    calculate_match_score "Python, SQL" "python,sql" = 100 := by
  refine ⟨?_, by decide⟩
  intro a b heq hne
  have hb : normalizeSkills b ≠ ∅ := heq ▸ hne
  have ha' := ne_empty_string_of_normalizeSkills hne
  have hb' := ne_empty_string_of_normalizeSkills hb
  rw [calculate_match_score_eq, if_neg (by simp [ha', hb']), if_pos hb, heq,
    Finset.inter_self]
  exact Nat.mul_div_cancel_left 100
    (Finset.card_pos.mpr (Finset.nonempty_iff_ne_empty.mpr hb))

/-- Witness for C4 at a concrete input. -/
theorem score_hundred_of_equal_sets_witness :
    normalizeSkills "sql" = normalizeSkills " SQL " ∧
    normalizeSkills "sql" ≠ ∅ ∧
    calculate_match_score "sql" " SQL " = 100 :=
  ⟨by decide, by decide,
    score_hundred_of_equal_sets.1 "sql" " SQL " (by decide) (by decide)⟩

/-- C5: normalisation is idempotent — normalising the comma-join of any
enumeration of an already-normalised set yields that set again. -/
theorem normalization_idempotent (s : String) (L : List (List Char))
    (hL : L.toFinset = normalizeSkills s) :
    normalizeSkills (String.mk (joinComma L)) = normalizeSkills s :=
  normalizeTokens_joinComma L hL

/-- Witness for C5 at a concrete input. -/
theorem normalization_idempotent_witness :
    (["python".data, "sql".data] : List (List Char)).toFinset =
      normalizeSkills " Python, SQL," ∧
    normalizeSkills (String.mk (joinComma ["python".data, "sql".data])) =
      normalizeSkills " Python, SQL," :=
  ⟨by decide,
    normalization_idempotent " Python, SQL," ["python".data, "sql".data]
      (by decide)⟩

/-- `missing_skills = list(job_skills_set - resume_skills_set)` (app.py
lines 196 and 256), modelled with set semantics (the list order produced by
Python `list(...)` is unspecified). -/
def missing_skills (resume_skills_text job_skills_text : String) :
    Finset (List Char) :=
  normalizeSkills job_skills_text \ normalizeSkills resume_skills_text

/-- C6: the missing-skills collection is the normalised job set minus the
normalised resume set; for job "python,sql" and resume "python" it is
exactly `{sql}`. -/
theorem missing_skills_is_set_difference :
    (∀ (a b : String) (t : List Char),
      t ∈ missing_skills a b ↔ t ∈ normalizeSkills b ∧ t ∉ normalizeSkills a) ∧
    missing_skills "python" "python,sql" = {"sql".data} := by
  refine ⟨?_, by decide⟩
  intro a b t
  exact Finset.mem_sdiff

/-- The inline match-percentage computation of the `/analyze` handler
(app.py lines 192–198): normalise both strings, intersect, and take
`int((len(matched)/len(job_set))*100)` guarded by `job_set` non-emptiness. -/
def analyze_match_percentage (resume_skills_text job_skills_text : String) :
    Nat :=
  let resume_skills_set := normalizeSkills resume_skills_text
  let job_skills_set := normalizeSkills job_skills_text
  let matched_skills := job_skills_set ∩ resume_skills_set
  if job_skills_set ≠ ∅ then
    matched_skills.card * 100 / job_skills_set.card
  else 0

theorem analyze_match_percentage_eq (a b : String) :
    analyze_match_percentage a b =
      if normalizeSkills b ≠ ∅ then
        ((normalizeSkills b) ∩ (normalizeSkills a)).card * 100 /
          (normalizeSkills b).card
      else 0 := rfl

/-- C10: on non-empty (truthy) inputs the inline `/analyze` handler
match-percentage computation agrees with `calculate_match_score`. -/
theorem analyze_refines_calculate_match_score (a b : String)
    (ha : a ≠ "") (hb : b ≠ "") :
    analyze_match_percentage a b = calculate_match_score a b := by
  simp only [analyze_match_percentage_eq, calculate_match_score_eq, ha, hb,
    or_self, if_false]
  rw [Finset.inter_comm]

/-- Witness for C10 at a concrete input. -/
theorem analyze_refines_calculate_match_score_witness :
    ("docker" : String) ≠ "" ∧ ("python, docker" : String) ≠ "" ∧
    analyze_match_percentage "docker" "python, docker" =
      calculate_match_score "docker" "python, docker" :=
  ⟨by decide, by decide,
    analyze_refines_calculate_match_score "docker" "python, docker"
      (by decide) (by decide)⟩

/-! ### Model gateway (external generative-model API)

The hosted model and the JSON parser are external collaborators: the
client `generate_content` call and the `json.loads` parser are oracle
parameters (`none` models a raised exception / falsy response).  The local
control flow around them — the credential guard, response cleaning and the
fallback strings — is embedded faithfully from app.py. -/

structure ModelClient where
  generate_content : String → Option String

def skills_prompt (text : String) : String :=
  "Extract a concise and precise list of technical skills, separated by commas, from the following text. Do not include job titles or non-technical skills.\n" ++ text

def jobs_prompt (resume_skills : String) : String :=
  "Based on the provided skills, recommend suitable job roles categorized by experience level (e.g., junior, mid, senior).\n\nSkills: " ++ resume_skills ++ "\n\nReturn JSON only, in this precise format:\n\x7b\n  \"junior\": [\"Job Title 1\", \"Job Title 2\"],\n  \"mid\": [\"Job Title 3\", \"Job Title 4\"],\n  \"senior\": [\"Job Title 5\"]\n\x7d"

def cover_letter_prompt (resume_skills job_desc : String) : String :=
  "Generate a concise cover letter highlighting the following skills for the given job description.\n\nResume Skills: " ++ resume_skills ++ "\nJob Description: " ++ job_desc

def info_prompt (pdf_text : String) : String :=
  "From the following resume text, extract the candidate name, a comma-separated list of their skills, their email address, and their phone number.\nReturn the information as a JSON object with keys name, skills, email, and phone.\nText:\n" ++ pdf_text

/-- Strip the code-fence markers from a model response before JSON parsing
(`response.text.replace("```json", "").replace("```", "").strip()`). -/
def clean_model_response (s : String) : String :=
  ((s.replace "```json" "").replace "```" "").trim

/-- `extract_skills_from_text` (app.py lines 36–47). -/
def extract_skills_from_text (client : Option ModelClient) (text : String) :
    Option String :=
  match client with
  | none => none
  | some m =>
    match m.generate_content (skills_prompt text) with
    | none => none
    | some r => if r ≠ "" then some r.trim else none

/-- `recommend_jobs_from_skills` (app.py lines 49–75); `J` is whatever
`json.loads` produces, `parse_json` the parser (`none` = decode error). -/
def recommend_jobs_from_skills {J : Type} (parse_json : String → Option J)
    (client : Option ModelClient) (resume_skills : String) : Option J :=
  match client with
  | none => none
  | some m =>
    match m.generate_content (jobs_prompt resume_skills) with
    | none => none
    | some r => parse_json (clean_model_response r)

/-- `generate_cover_letter` (app.py lines 85–97). -/
def generate_cover_letter (client : Option ModelClient)
    (resume_skills job_desc : String) : String :=
  match client with
  | none =>
    "Cover letter generation is currently unavailable. Please check your API key."
  | some m =>
    match m.generate_content (cover_letter_prompt resume_skills job_desc) with
    | none => "Cover letter generation failed due to an API error."
    | some r =>
      if r ≠ "" then r else "Cover letter generation failed due to an API error."

/-- The fields `json.loads` may deliver for one résumé
(`extracted_info.get(...)` defaults are applied at the use site). -/
structure ExtractedInfo where
  name : Option String
  skills : Option String
  email : Option String
  phone : Option String

/-- `extract_name_skills_and_contact` (app.py lines 115–137). -/
def extract_name_skills_and_contact
    (parse_info : String → Option ExtractedInfo)
    (client : Option ModelClient) (pdf_text : String) :
    Option ExtractedInfo :=
  match client with
  | none => none
  | some m =>
    match m.generate_content (info_prompt pdf_text) with
    | none => none
    | some r =>
      if r ≠ "" then parse_info (clean_model_response r) else none

/-- C9: with the credential absent (`gemini_model = None`), every
model-dependent operation degrades gracefully: the three extractors return
the `None` sentinel and `generate_cover_letter` returns the local
"unavailable" fallback string. -/
theorem missing_credential_degrades_gracefully :
    (∀ text : String, extract_skills_from_text none text = none) ∧
    (∀ (J : Type) (parse_json : String → Option J) (skills : String),
      recommend_jobs_from_skills parse_json none skills = none) ∧
    (∀ (parse_info : String → Option ExtractedInfo) (pdf_text : String),
      extract_name_skills_and_contact parse_info none pdf_text = none) ∧
    (∀ resume_skills job_desc : String,
      generate_cover_letter none resume_skills job_desc =
        "Cover letter generation is currently unavailable. Please check your API key.") :=
  ⟨fun _ => rfl, fun _ _ _ => rfl, fun _ _ => rfl, fun _ _ => rfl⟩

/-! ### Recruiter mode (`/analyze-recruiter`, app.py lines 227–278) -/

/-- One candidate dictionary as appended at app.py lines 261–269 (the
pie-chart string comes from the external chart renderer). -/
structure Candidate where
  name : String
  email : String
  phone : String
  match_percentage : Nat
  missing_skills : Finset (List Char)
  pdf_name : String
  pie_chart : String

/-- One uploaded file together with the outcomes of its external calls:
`pdf_text` is the `extract_text_from_pdf` result (`none` = exception,
`some ""` = no text on any page, both falsy in Python), `extracted` the
`extract_name_skills_and_contact` result for that text. -/
structure ResumeFile where
  filename : String
  pdf_text : Option String
  extracted : Option ExtractedInfo

/-- The per-file loop of `analyze_recruiter` (app.py lines 242–269):
files whose text extraction or info extraction fails are skipped with
`continue`; the rest become candidates in encounter order. -/
def processResumes (job_skills_text : String) (pie_chart : Nat → String) :
    List ResumeFile → List Candidate
  | [] => []
  | f :: rest =>
    match f.pdf_text with
    | none => processResumes job_skills_text pie_chart rest
    | some txt =>
      if txt = "" then processResumes job_skills_text pie_chart rest
      else
        match f.extracted with
        | none => processResumes job_skills_text pie_chart rest
        | some info =>
          let resume_skills_text := info.skills.getD ""
          let match_percentage :=
            calculate_match_score resume_skills_text job_skills_text
          { name := info.name.getD "Unknown Candidate"
            email := info.email.getD "N/A"
            phone := info.phone.getD "N/A"
            match_percentage := match_percentage
            missing_skills := missing_skills resume_skills_text job_skills_text
            pdf_name := f.filename
            pie_chart := pie_chart match_percentage } ::
            processResumes job_skills_text pie_chart rest

/-- The candidate sort of app.py line 271: the Python built-in stable
sort keyed on match percentage with reverse=True, i.e. stable descending. -/
def sortCandidates (candidates : List Candidate) : List Candidate :=
  candidates.mergeSort
    (fun a b => decide (b.match_percentage ≤ a.match_percentage))

theorem sortCandidates_le_trans (a b c : Candidate)
    (h1 : decide (b.match_percentage ≤ a.match_percentage) = true)
    (h2 : decide (c.match_percentage ≤ b.match_percentage) = true) :
    decide (c.match_percentage ≤ a.match_percentage) = true := by
  simp only [decide_eq_true_eq] at *
  omega

theorem sortCandidates_le_total (a b : Candidate) :
    (decide (b.match_percentage ≤ a.match_percentage) ||
      decide (a.match_percentage ≤ b.match_percentage)) = true := by
  simp only [Bool.or_eq_true, decide_eq_true_eq]
  exact Nat.le_total _ _

/-- C7: the recruiter-mode sort returns a permutation of the processed
candidates sorted in descending order of `match_percentage`, and the
candidates of any fixed match percentage keep their encounter order
(stability, stated as filter invariance). -/
theorem sortCandidates_sorted_stable (l : List Candidate) :
    (sortCandidates l).Pairwise
        (fun a b => b.match_percentage ≤ a.match_percentage) ∧
    List.Perm (sortCandidates l) l ∧
    ∀ v : Nat,
      (sortCandidates l).filter (fun c => c.match_percentage == v) =
        l.filter (fun c => c.match_percentage == v) := by
  refine ⟨?_, List.mergeSort_perm l _, ?_⟩
  · have h := List.sorted_mergeSort sortCandidates_le_trans
      sortCandidates_le_total l
    exact h.imp (fun hab => by simpa using hab)
  · intro v
    set P : Candidate → Bool := fun c => c.match_percentage == v with hP
    have hpw : (l.filter P).Pairwise
        (fun a b => decide (b.match_percentage ≤ a.match_percentage) = true) := by
      apply List.pairwise_of_forall_mem_list
      intro a ha b hb
      have ha' : a.match_percentage = v := by
        simpa [hP] using (List.mem_filter.mp ha).2
      have hb' : b.match_percentage = v := by
        simpa [hP] using (List.mem_filter.mp hb).2
      simp [ha', hb']
    have hsub : List.Sublist (l.filter P) (sortCandidates l) :=
      List.sublist_mergeSort sortCandidates_le_trans sortCandidates_le_total
        hpw (List.filter_sublist l)
    have hfs : List.Sublist ((l.filter P).filter P)
        ((sortCandidates l).filter P) :=
      hsub.filter P
    have hself : (l.filter P).filter P = l.filter P := by
      rw [List.filter_eq_self]
      exact fun a ha => (List.mem_filter.mp ha).2
    rw [hself] at hfs
    have hlen : ((sortCandidates l).filter P).length = (l.filter P).length := by
      rw [← List.countP_eq_length_filter, ← List.countP_eq_length_filter]
      exact (List.mergeSort_perm l _).countP_eq P
    exact (hfs.eq_of_length hlen.symm).symm

/-- C8: a file whose PDF text extraction fails (`None` or empty text) is
silently skipped by the recruiter loop: it contributes no candidate and the
remaining files are processed unchanged, with no request-level error. -/
theorem failed_extraction_skipped
    (job : String) (chart : Nat → String) (xs ys : List ResumeFile)
    (f : ResumeFile) (hf : f.pdf_text = none ∨ f.pdf_text = some "") :
    processResumes job chart (xs ++ f :: ys) =
      processResumes job chart (xs ++ ys) := by
  induction xs with
  | nil =>
    simp only [List.nil_append]
    rcases hf with h | h
    · simp [processResumes, h]
    · simp [processResumes, h]
  | cons g xs ih =>
    simp only [List.cons_append]
    cases hg : g.pdf_text with
    | none => simp [processResumes, hg, ih]
    | some t =>
      by_cases ht : t = ""
      · simp [processResumes, hg, ht, ih]
      · cases hx : g.extracted with
        | none => simp [processResumes, hg, ht, ih, hx]
        | some info => simp [processResumes, hg, ht, ih, hx]

/-- Witness for C8 at a concrete input: a file with failed text extraction
adds nothing to the candidate list. -/
theorem failed_extraction_skipped_witness :
    ((⟨"bad.pdf", none, none⟩ : ResumeFile).pdf_text = none ∨
      (⟨"bad.pdf", none, none⟩ : ResumeFile).pdf_text = some "") ∧
    processResumes "python" (fun _ => "chart")
        ([] ++ (⟨"bad.pdf", none, none⟩ : ResumeFile) :: []) =
      processResumes "python" (fun _ => "chart") ([] ++ []) :=
  ⟨Or.inl rfl,
    failed_extraction_skipped "python" (fun _ => "chart") [] []
      ⟨"bad.pdf", none, none⟩ (Or.inl rfl)⟩

end ResumeLens
